import Mathlib

set_option linter.unusedSectionVars false

/-!
Verification of the AVL-tree implementation in src/avl_tree.rs.

The Rust type Option<Box<Node<K, V>>> is embedded as the inductive `Tree`:
the constructor `nil` stands for None, `node key value height left right`
for Some(Box(Node { key, value, height, left, right })).  Rust functions
that can panic (expect / unwrap) are embedded as functions into Option,
with `none` standing for a panic.  Each definition carries the name of the
Rust item it translates.
-/

namespace AVLSpec

/-- Node<K, V> / Option<Box<Node<K, V>>> from src/avl_tree.rs. -/
inductive Tree (K V : Type) where
  | nil : Tree K V
  | node (key : K) (value : V) (height : Nat) (left right : Tree K V) : Tree K V
deriving Repr, DecidableEq

variable {K V : Type} [LinearOrder K]

/-- Node::height: 0 for an absent subtree, else the cached height field. -/
def heightT : Tree K V → Nat
  | .nil => 0
  | .node _ _ h _ _ => h

/-- Node::balance_factor: cached left height minus cached right height. -/
def balanceFactor : Tree K V → Int
  | .nil => 0
  | .node _ _ _ l r => (heightT l : Int) - (heightT r : Int)

/-- Node::rotate_right.  The expect on self.left panicking is `none`.
update_height recomputes a height as 1 + max of the children's cached
heights, first on the demoted node, then on the new root. -/
def rotateRight : Tree K V → Option (Tree K V)
  | .node k v _ (.node lk lv _ ll lr) r =>
      some (.node lk lv
              (1 + max (heightT ll) (1 + max (heightT lr) (heightT r)))
              ll
              (.node k v (1 + max (heightT lr) (heightT r)) lr r))
  | _ => none

/-- Node::rotate_left, mirror of rotate_right. -/
def rotateLeft : Tree K V → Option (Tree K V)
  | .node k v _ l (.node rk rv _ rl rr) =>
      some (.node rk rv
              (1 + max (1 + max (heightT l) (heightT rl)) (heightT rr))
              (.node k v (1 + max (heightT l) (heightT rl)) l rl)
              rr)
  | _ => none

/-- Node::balance: update_height, then rotate according to the balance
factor.  The unwrap on the heavy child and the expects inside the
rotations panicking are `none`. -/
def balance : Tree K V → Option (Tree K V)
  | .nil => none
  | .node k v _ l r =>
    if 1 < (heightT l : Int) - (heightT r : Int) then
      match l with
      | .nil => none
      | .node lk lv lh ll lr =>
        if balanceFactor (Tree.node lk lv lh ll lr) < 0 then
          (rotateLeft (Tree.node lk lv lh ll lr)).bind fun l2 =>
            rotateRight (.node k v (1 + max (heightT l) (heightT r)) l2 r)
        else
          rotateRight (.node k v (1 + max (heightT l) (heightT r))
            (.node lk lv lh ll lr) r)
    else if (heightT l : Int) - (heightT r : Int) < -1 then
      match r with
      | .nil => none
      | .node rk rv rh rl rr =>
        if 0 < balanceFactor (Tree.node rk rv rh rl rr) then
          (rotateRight (Tree.node rk rv rh rl rr)).bind fun r2 =>
            rotateLeft (.node k v (1 + max (heightT l) (heightT r)) l r2)
        else
          rotateLeft (.node k v (1 + max (heightT l) (heightT r)) l
            (.node rk rv rh rl rr))
    else
      some (.node k v (1 + max (heightT l) (heightT r)) l r)

/-- Node::insert lifted to Option<Box<Node>>: the nil case is the
fresh-leaf creation that both AVLTree::insert (absent root) and
Node::insert (absent child) perform. -/
def insertT : Tree K V → K → V → Option (Tree K V)
  | .nil, k, v => some (.node k v 1 .nil .nil)
  | .node key value h l r, k, v =>
    if k < key then
      (insertT l k v).bind fun l2 => balance (.node key value h l2 r)
    else if key < k then
      (insertT r k v).bind fun r2 => balance (.node key value h l r2)
    else
      balance (.node key v h l r)

/-- Node::find_min: follow left children until none remain; returns that
node (with its own fields intact).  Never called on nil in the source. -/
def findMin : Tree K V → Tree K V
  | .nil => .nil
  | .node k v h .nil r => .node k v h .nil r
  | .node _ _ _ (.node lk lv lh ll lr) _ => findMin (.node lk lv lh ll lr)

/-- Node::remove lifted to Option<Box<Node>>: the nil case is the
absent-child no-op in the Less/Greater branches.  In the Equal branch with
two children the code sets self.key/value to the minimum of the right
subtree and then self.right = min.right, self.left = min.left, exactly as
written in the source (lines 150-154). -/
def removeT : Tree K V → K → Option (Tree K V)
  | .nil, _ => some .nil
  | .node key value h l r, k =>
    if k < key then
      (removeT l k).bind fun l2 => balance (.node key value h l2 r)
    else if key < k then
      (removeT r k).bind fun r2 => balance (.node key value h l r2)
    else
      match l with
      | .nil => some r
      | .node _ _ _ _ _ =>
        match r with
        | .nil => some l
        | .node _ _ _ _ _ =>
          match findMin r with
          | .nil => none
          | .node mk mv _ ml mr => balance (.node mk mv h ml mr)

/-- Node::find: pure comparison descent. -/
def findT : Tree K V → K → Option V
  | .nil, _ => none
  | .node key value _ l r, k =>
    if k < key then findT l k
    else if key < k then findT r k
    else some value

/-- Node::inorder_traversal: the list of (key, value) pairs in the order
the visitor is invoked (left, self, right). -/
def inorderT : Tree K V → List (K × V)
  | .nil => []
  | .node k v _ l r => inorderT l ++ (k, v) :: inorderT r

/-- The keys in traversal order. -/
def keysT (t : Tree K V) : List K := (inorderT t).map Prod.fst

/-- AVLTree<K, V>: the public handle owning the optional root. -/
structure AVLTree (K V : Type) where
  root : Tree K V
deriving Repr, DecidableEq

/-- AVLTree::new. -/
def AVLTree.new : AVLTree K V := ⟨.nil⟩

/-- AVLTree::insert: create a singleton leaf if the root is absent, else
replace the root with Node::insert's result. -/
def AVLTree.insert (t : AVLTree K V) (k : K) (v : V) :
    Option (AVLTree K V) :=
  match t.root with
  | .nil => some ⟨.node k v 1 .nil .nil⟩
  | .node key value h l r =>
    (insertT (.node key value h l r) k v).map (⟨·⟩)

/-- AVLTree::remove: returns the tree paired with the reported flag.  The
source returns true whenever the root was present, false only on an empty
tree. -/
def AVLTree.remove (t : AVLTree K V) (k : K) :
    Option (AVLTree K V × Bool) :=
  match t.root with
  | .nil => some (⟨.nil⟩, false)
  | .node key value h l r =>
    (removeT (.node key value h l r) k).map fun t2 => (⟨t2⟩, true)

/-- AVLTree::find. -/
def AVLTree.find (t : AVLTree K V) (k : K) : Option V :=
  findT t.root k

/-- AVLTree::inorder_traversal as the list of visited pairs. -/
def AVLTree.inorder (t : AVLTree K V) : List (K × V) :=
  inorderT t.root

/-- One public operation on the tree handle. -/
inductive Op (K V : Type) where
  | insert (k : K) (v : V) : Op K V
  | remove (k : K) : Op K V

/-- Run a sequence of public operations, threading the handle. -/
def runOps : AVLTree K V → List (Op K V) → Option (AVLTree K V)
  | t, [] => some t
  | t, .insert k v :: ops => (t.insert k v).bind fun t2 => runOps t2 ops
  | t, .remove k :: ops =>
    (t.remove k).bind fun p => runOps p.1 ops

/-- Height-cache invariant: every node's cached height field equals
1 + max of its children's cached heights. -/
def HInvB : Tree K V → Bool
  | .nil => true
  | .node _ _ h l r =>
    HInvB l && HInvB r && (h == 1 + max (heightT l) (heightT r))

/-- Balance invariant: every node's cached child heights differ by at
most 1. -/
def BInvB : Tree K V → Bool
  | .nil => true
  | .node _ _ _ l r =>
    BInvB l && BInvB r && decide (heightT l ≤ heightT r + 1)
      && decide (heightT r ≤ heightT l + 1)

/-- The binary-search-order invariant, phrased on the traversal: keys are
strictly ascending. -/
def OrderedT (t : Tree K V) : Prop :=
  List.Pairwise (· < ·) (keysT t)

instance (t : Tree K V) : Decidable (OrderedT t) := by
  unfold OrderedT; infer_instance

/-- Replace the value stored at key k, touching nothing else (the shape,
all other entries and all height fields are preserved).  Used to state
that a duplicate-key insert is a pure value overwrite. -/
def updateValue : Tree K V → K → V → Tree K V
  | .nil, _, _ => .nil
  | .node key value h l r, k, v =>
    if k < key then .node key value h (updateValue l k v) r
    else if key < k then .node key value h l (updateValue r k v)
    else .node key v h l r

/-- Insertion into a (sorted) association list: the list-level model of
what insertT does to the traversal. -/
def listInsert (k : K) (v : V) : List (K × V) → List (K × V)
  | [] => [(k, v)]
  | (a, b) :: xs =>
    if k < a then (k, v) :: (a, b) :: xs
    else if a < k then (a, b) :: listInsert k v xs
    else (k, v) :: xs

/-- First-match lookup in an association list. -/
def lookupKV : List (K × V) → K → Option V
  | [], _ => none
  | (a, b) :: xs, k => if k = a then some b else lookupKV xs k

/-- Insert a list of pairs through the public handle. -/
def insertList : AVLTree K V → List (K × V) → Option (AVLTree K V)
  | t, [] => some t
  | t, (k, v) :: xs => (t.insert k v).bind fun t2 => insertList t2 xs

/-- Remove a list of keys through the public handle. -/
def removeList : AVLTree K V → List K → Option (AVLTree K V)
  | t, [] => some t
  | t, k :: xs => (t.remove k).bind fun p => removeList p.1 xs

/-! ### Basic facts about the embedded operations -/

@[simp] theorem heightT_nil : heightT (.nil : Tree K V) = 0 := rfl

@[simp] theorem heightT_node (k : K) (v : V) (h : Nat) (l r : Tree K V) :
    heightT (.node k v h l r) = h := rfl

@[simp] theorem inorderT_nil : inorderT (.nil : Tree K V) = [] := rfl

@[simp] theorem inorderT_node (k : K) (v : V) (h : Nat) (l r : Tree K V) :
    inorderT (.node k v h l r) = inorderT l ++ (k, v) :: inorderT r := rfl

@[simp] theorem keysT_nil : keysT (.nil : Tree K V) = [] := rfl

@[simp] theorem keysT_node (k : K) (v : V) (h : Nat) (l r : Tree K V) :
    keysT (.node k v h l r) = keysT l ++ k :: keysT r := by
  simp [keysT, inorderT]

theorem hinv_node_iff (k : K) (v : V) (h : Nat) (l r : Tree K V) :
    HInvB (.node k v h l r) = true ↔
      HInvB l = true ∧ HInvB r = true ∧
        h = 1 + max (heightT l) (heightT r) := by
  simp [HInvB, Bool.and_eq_true, beq_iff_eq, and_assoc]

theorem binv_node_iff (k : K) (v : V) (h : Nat) (l r : Tree K V) :
    BInvB (.node k v h l r) = true ↔
      BInvB l = true ∧ BInvB r = true ∧
        heightT l ≤ heightT r + 1 ∧ heightT r ≤ heightT l + 1 := by
  simp [BInvB, Bool.and_eq_true, decide_eq_true_eq, and_assoc]

/-- Splitting strict sortedness of a list around a middle element. -/
theorem pairwiseMid_iff (k : K) (kl kr : List K) :
    List.Pairwise (· < ·) (kl ++ k :: kr) ↔
      List.Pairwise (· < ·) kl ∧ List.Pairwise (· < ·) kr ∧
        (∀ a ∈ kl, a < k) ∧ (∀ b ∈ kr, k < b) := by
  rw [List.pairwise_append]
  simp only [List.pairwise_cons, List.mem_cons]
  constructor
  · rintro ⟨hl, ⟨hk, hr⟩, hcross⟩
    refine ⟨hl, hr, ?_, hk⟩
    intro a ha
    exact hcross a ha k (Or.inl rfl)
  · rintro ⟨hl, hr, hlk, hkr⟩
    refine ⟨hl, ⟨hkr, hr⟩, ?_⟩
    intro a ha b hb
    rcases hb with rfl | hb
    · exact hlk a ha
    · exact lt_trans (hlk a ha) (hkr b hb)

theorem orderedT_node_iff (k : K) (v : V) (h : Nat) (l r : Tree K V) :
    OrderedT (.node k v h l r) ↔
      OrderedT l ∧ OrderedT r ∧ (∀ a ∈ keysT l, a < k) ∧
        (∀ b ∈ keysT r, k < b) := by
  unfold OrderedT
  rw [keysT_node]
  exact pairwiseMid_iff k (keysT l) (keysT r)

/-- Under the height cache invariant a subtree with nonzero cached height
is a node. -/
theorem node_of_heightT_pos {t : Tree K V} (hH : HInvB t = true)
    (hp : 0 < heightT t) : ∃ k v h l r, t = .node k v h l r := by
  cases t with
  | nil => simp at hp
  | node k v h l r => exact ⟨k, v, h, l, r, rfl⟩

/-- Node::balance when the node is within the balance bound: only the
height field is recomputed, no rotation happens. -/
theorem balance_eq_self (k : K) (v : V) (h : Nat) (l r : Tree K V)
    (h1 : heightT l ≤ heightT r + 1) (h2 : heightT r ≤ heightT l + 1) :
    balance (.node k v h l r) =
      some (.node k v (1 + max (heightT l) (heightT r)) l r) := by
  simp only [balance]
  rw [if_neg (by omega), if_neg (by omega)]

/-- Node::balance succeeds whenever the children satisfy the height cache
invariant, returns a tree satisfying it, and preserves the in-order
traversal of the would-be node. -/
theorem balance_spec (k : K) (v : V) (h : Nat) (l r : Tree K V)
    (hl : HInvB l = true) (hr : HInvB r = true) :
    ∃ t', balance (Tree.node k v h l r) = some t' ∧ HInvB t' = true ∧
      inorderT t' = inorderT l ++ (k, v) :: inorderT r := by
  by_cases h1 : 1 < (heightT l : Int) - (heightT r : Int)
  · -- left-heavy: the left child exists
    cases l with
    | nil => simp at h1; omega
    | node lk lv lh ll lr =>
      rw [hinv_node_iff] at hl
      obtain ⟨hll, hlr, hlh⟩ := hl
      simp only [balance]
      rw [if_pos h1]
      by_cases h2 : balanceFactor (Tree.node lk lv lh ll lr) < 0
      · rw [if_pos h2]
        -- the inner left child is right-heavy, so its right child exists
        cases lr with
        | nil => simp [balanceFactor] at h2; omega
        | node bk bv bh bl br =>
          rw [hinv_node_iff] at hlr
          obtain ⟨hbl, hbr, hbh⟩ := hlr
          simp only [rotateLeft, rotateRight, Option.bind]
          refine ⟨_, rfl, ?_, ?_⟩
          · simp [hinv_node_iff, hll, hbl, hbr, hr]
          · simp [List.append_assoc]
      · rw [if_neg h2]
        simp only [rotateRight]
        refine ⟨_, rfl, ?_, ?_⟩
        · simp [hinv_node_iff, hll, hlr, hr]
        · simp [List.append_assoc]
  · by_cases h3 : (heightT l : Int) - (heightT r : Int) < -1
    · -- right-heavy: the right child exists
      cases r with
      | nil => simp at h3; omega
      | node rk rv rh rl rr =>
        rw [hinv_node_iff] at hr
        obtain ⟨hrl, hrr, hrh⟩ := hr
        simp only [balance]
        rw [if_neg h1, if_pos h3]
        by_cases h2 : 0 < balanceFactor (Tree.node rk rv rh rl rr)
        · rw [if_pos h2]
          cases rl with
          | nil => simp [balanceFactor] at h2; omega
          | node bk bv bh bl br =>
            rw [hinv_node_iff] at hrl
            obtain ⟨hbl, hbr, hbh⟩ := hrl
            simp only [rotateRight, rotateLeft, Option.bind]
            refine ⟨_, rfl, ?_, ?_⟩
            · simp [hinv_node_iff, hl, hbl, hbr, hrr]
            · simp [List.append_assoc]
        · rw [if_neg h2]
          simp only [rotateLeft]
          refine ⟨_, rfl, ?_, ?_⟩
          · simp [hinv_node_iff, hl, hrl, hrr]
          · simp [List.append_assoc]
    · refine ⟨_, balance_eq_self k v h l r (by omega) (by omega), ?_, ?_⟩
      · rw [hinv_node_iff]
        exact ⟨hl, hr, rfl⟩
      · simp

/-- Node::find_min on a non-empty subtree returns the leftmost node with
its own fields intact: its left child is absent, its height cache is
still valid, and its traversal is an initial segment of the subtree's
traversal. -/
theorem findMin_spec (t : Tree K V) (hne : t ≠ .nil) :
    ∃ mk mv mh mr, findMin t = .node mk mv mh .nil mr ∧
      (HInvB t = true → HInvB (.node mk mv mh .nil mr) = true) ∧
      ∃ rest, inorderT t = inorderT (.node mk mv mh .nil mr) ++ rest := by
  induction t with
  | nil => exact absurd rfl hne
  | node k v h l r ihl ihr =>
    cases l with
    | nil =>
      refine ⟨k, v, h, r, rfl, fun hh => hh, [], ?_⟩
      simp
    | node lk lv lh ll lr =>
      obtain ⟨mk, mv, mh, mr, he, hHm, rest, hin⟩ := ihl (by simp)
      refine ⟨mk, mv, mh, mr, ?_, ?_, ?_⟩
      · rw [findMin]
        exact he
      · intro hh
        rw [hinv_node_iff] at hh
        exact hHm hh.1
      · refine ⟨rest ++ (k, v) :: inorderT r, ?_⟩
        rw [inorderT_node, hin]
        simp [List.append_assoc]

/-- Node::remove (with the absent-child no-op folded in) never panics on
a tree satisfying the height-cache and order invariants; it preserves
both invariants, introduces no key, and the removed key is absent from
the result.  This holds even though the two-children case of the source
discards further entries. -/
theorem removeT_spec (t : Tree K V) (k : K) (hH : HInvB t = true)
    (hO : OrderedT t) :
    ∃ t', removeT t k = some t' ∧ HInvB t' = true ∧ OrderedT t' ∧
      (∀ a ∈ keysT t', a ∈ keysT t) ∧ k ∉ keysT t' := by
  induction t with
  | nil =>
    refine ⟨.nil, rfl, rfl, ?_, ?_, ?_⟩ <;> simp [OrderedT]
  | node key value h l r ihl ihr =>
    rw [hinv_node_iff] at hH
    obtain ⟨hHl, hHr, hh⟩ := hH
    rw [orderedT_node_iff] at hO
    obtain ⟨hOl, hOr, hlk, hkr⟩ := hO
    rcases lt_trichotomy k key with hlt | heq | hgt
    · obtain ⟨l', hl', hHl', hOl', hsub, hnotin⟩ := ihl hHl hOl
      obtain ⟨t', hbal, hH', hin⟩ := balance_spec key value h l' r hHl' hHr
      have hk : keysT t' = keysT l' ++ key :: keysT r := by
        simp [keysT, hin]
      refine ⟨t', ?_, hH', ?_, ?_, ?_⟩
      · simp only [removeT]
        rw [if_pos hlt, hl']
        simpa using hbal
      · unfold OrderedT
        rw [hk, pairwiseMid_iff]
        exact ⟨hOl', hOr, fun a ha => hlk a (hsub a ha), hkr⟩
      · intro a ha
        rw [hk] at ha
        rw [keysT_node]
        rcases List.mem_append.1 ha with ha | ha
        · exact List.mem_append.2 (Or.inl (hsub a ha))
        · exact List.mem_append.2 (Or.inr ha)
      · rw [hk]
        intro hmem
        rcases List.mem_append.1 hmem with hm | hm
        · exact hnotin hm
        · rcases List.mem_cons.1 hm with rfl | hm
          · exact lt_irrefl k hlt
          · exact absurd (hkr k hm) (not_lt_of_gt hlt)
    · subst heq
      cases l with
      | nil =>
        refine ⟨r, ?_, hHr, hOr, ?_, ?_⟩
        · simp [removeT]
        · intro a ha
          rw [keysT_node]
          exact List.mem_append.2 (Or.inr (List.mem_cons_of_mem _ ha))
        · intro hmem
          exact absurd (hkr k hmem) (lt_irrefl k)
      | node lk lv lh ll lr =>
        cases r with
        | nil =>
          refine ⟨.node lk lv lh ll lr, ?_, hHl, hOl, ?_, ?_⟩
          · simp [removeT]
          · intro a ha
            rw [keysT_node]
            exact List.mem_append.2 (Or.inl ha)
          · intro hmem
            exact absurd (hlk k hmem) (lt_irrefl k)
        | node rk rv rh rl rr =>
          obtain ⟨mk, mv, mh, mr, hfm, hHm, rest, hinm⟩ :=
            findMin_spec (Tree.node rk rv rh rl rr) (by simp)
          have hHm2 := hHm hHr
          rw [hinv_node_iff] at hHm2
          obtain ⟨t', hbal, hH', hin⟩ :=
            balance_spec mk mv h Tree.nil mr rfl hHm2.2.1
          have hkeysr : keysT (Tree.node rk rv rh rl rr) =
              (mk :: keysT mr) ++ rest.map Prod.fst := by
            unfold keysT
            rw [hinm]
            simp [keysT, inorderT]
          have hsubl : (mk :: keysT mr).Sublist
              (keysT (Tree.node rk rv rh rl rr)) := by
            rw [hkeysr]
            exact List.sublist_append_left _ _
          have hk : keysT t' = mk :: keysT mr := by
            simp [keysT, hin]
          refine ⟨t', ?_, hH', ?_, ?_, ?_⟩
          · simp only [removeT]
            rw [if_neg (lt_irrefl k), if_neg (lt_irrefl k), hfm]
            exact hbal
          · unfold OrderedT
            rw [hk]
            exact hOr.sublist hsubl
          · intro a ha
            rw [hk] at ha
            rw [keysT_node]
            exact List.mem_append.2
              (Or.inr (List.mem_cons_of_mem _ (hsubl.mem ha)))
          · intro hmem
            rw [hk] at hmem
            exact absurd (hkr k (hsubl.mem hmem)) (lt_irrefl k)
    · obtain ⟨r', hr', hHr', hOr', hsub, hnotin⟩ := ihr hHr hOr
      obtain ⟨t', hbal, hH', hin⟩ := balance_spec key value h l r' hHl hHr'
      have hk : keysT t' = keysT l ++ key :: keysT r' := by
        simp [keysT, hin]
      refine ⟨t', ?_, hH', ?_, ?_, ?_⟩
      · simp only [removeT]
        rw [if_neg (not_lt_of_gt hgt), if_pos hgt, hr']
        simpa using hbal
      · unfold OrderedT
        rw [hk, pairwiseMid_iff]
        exact ⟨hOl, hOr', hlk, fun b hb => hkr b (hsub b hb)⟩
      · intro a ha
        rw [hk] at ha
        rw [keysT_node]
        rcases List.mem_append.1 ha with ha | ha
        · exact List.mem_append.2 (Or.inl ha)
        · rcases List.mem_cons.1 ha with rfl | ha
          · exact List.mem_append.2 (Or.inr (List.mem_cons_self _ _))
          · exact List.mem_append.2
              (Or.inr (List.mem_cons_of_mem _ (hsub a ha)))
      · rw [hk]
        intro hmem
        rcases List.mem_append.1 hmem with hm | hm
        · exact absurd (hlk k hm) (not_lt_of_gt hgt)
        · rcases List.mem_cons.1 hm with rfl | hm
          · exact lt_irrefl k hgt
          · exact hnotin hm

/-- Node::remove on a key absent from the tree returns the identical
tree: no field changes, no rotation.  Needs the height-cache and balance
invariants so that each balance call on the way back up is the
identity. -/
theorem removeT_absent (t : Tree K V) (k : K) (hH : HInvB t = true)
    (hB : BInvB t = true) (hk : k ∉ keysT t) :
    removeT t k = some t := by
  induction t with
  | nil => rfl
  | node key value h l r ihl ihr =>
    rw [hinv_node_iff] at hH
    obtain ⟨hHl, hHr, hh⟩ := hH
    rw [binv_node_iff] at hB
    obtain ⟨hBl, hBr, hb1, hb2⟩ := hB
    have hkey : k ≠ key := by
      intro he
      apply hk
      rw [he, keysT_node]
      exact List.mem_append.2 (Or.inr (List.mem_cons_self _ _))
    have hkl : k ∉ keysT l := by
      intro hm
      apply hk
      rw [keysT_node]
      exact List.mem_append.2 (Or.inl hm)
    have hkr2 : k ∉ keysT r := by
      intro hm
      apply hk
      rw [keysT_node]
      exact List.mem_append.2 (Or.inr (List.mem_cons_of_mem _ hm))
    rcases lt_trichotomy k key with hlt | heq | hgt
    · simp only [removeT]
      rw [if_pos hlt, ihl hHl hBl hkl]
      simp only [Option.some_bind]
      rw [balance_eq_self key value h l r hb1 hb2, hh]
    · exact absurd heq hkey
    · simp only [removeT]
      rw [if_neg (not_lt_of_gt hgt), if_pos hgt, ihr hHr hBr hkr2]
      simp only [Option.some_bind]
      rw [balance_eq_self key value h l r hb1 hb2, hh]

/-! ### The list-level model of insertion -/

theorem listInsert_append_lt (k : K) (v : V) (a : K) (b : V)
    (xs ys : List (K × V)) (hka : k < a) :
    listInsert k v (xs ++ (a, b) :: ys) = listInsert k v xs ++ (a, b) :: ys := by
  induction xs with
  | nil =>
    simp only [List.nil_append, listInsert]
    rw [if_pos hka]
    rfl
  | cons p xs ih =>
    obtain ⟨c, d⟩ := p
    simp only [List.cons_append, List.append_eq, listInsert]
    by_cases h1 : k < c
    · rw [if_pos h1, if_pos h1]
      simp
    · by_cases h2 : c < k
      · rw [if_neg h1, if_pos h2, if_neg h1, if_pos h2, ih]
        simp
      · rw [if_neg h1, if_neg h2, if_neg h1, if_neg h2]
        simp

theorem listInsert_append_gt (k : K) (v : V) (a : K) (b : V)
    (xs ys : List (K × V)) (hax : ∀ p ∈ xs, p.1 < k) (hak : a < k) :
    listInsert k v (xs ++ (a, b) :: ys) = xs ++ (a, b) :: listInsert k v ys := by
  induction xs with
  | nil =>
    simp only [List.nil_append, listInsert]
    rw [if_neg (not_lt_of_gt hak), if_pos hak]
  | cons p xs ih =>
    obtain ⟨c, d⟩ := p
    have hck : c < k := hax (c, d) (List.mem_cons_self _ _)
    simp only [List.cons_append, List.append_eq, listInsert]
    rw [if_neg (not_lt_of_gt hck), if_pos hck,
      ih (fun p hp => hax p (List.mem_cons_of_mem _ hp))]

theorem listInsert_append_eq (k : K) (v b : V) (xs ys : List (K × V))
    (hax : ∀ p ∈ xs, p.1 < k) :
    listInsert k v (xs ++ (k, b) :: ys) = xs ++ (k, v) :: ys := by
  induction xs with
  | nil =>
    simp only [List.nil_append, listInsert]
    rw [if_neg (lt_irrefl k), if_neg (lt_irrefl k)]
  | cons p xs ih =>
    obtain ⟨c, d⟩ := p
    have hck : c < k := hax (c, d) (List.mem_cons_self _ _)
    simp only [List.cons_append, List.append_eq, listInsert]
    rw [if_neg (not_lt_of_gt hck), if_pos hck,
      ih (fun p hp => hax p (List.mem_cons_of_mem _ hp))]

theorem mem_keys_listInsert (k : K) (v : V) (xs : List (K × V)) :
    k ∈ (listInsert k v xs).map Prod.fst := by
  induction xs with
  | nil => simp [listInsert]
  | cons p xs ih =>
    obtain ⟨a, b⟩ := p
    simp only [listInsert]
    by_cases h1 : k < a
    · rw [if_pos h1]
      simp
    · by_cases h2 : a < k
      · rw [if_neg h1, if_pos h2]
        simp only [List.map_cons, List.mem_cons]
        exact Or.inr ih
      · rw [if_neg h1, if_neg h2]
        simp

theorem keys_listInsert_subset (k : K) (v : V) (xs : List (K × V)) :
    ∀ a ∈ (listInsert k v xs).map Prod.fst, a = k ∨ a ∈ xs.map Prod.fst := by
  induction xs with
  | nil => simp [listInsert]
  | cons p xs ih =>
    obtain ⟨c, d⟩ := p
    intro a ha
    simp only [listInsert] at ha
    by_cases h1 : k < c
    · rw [if_pos h1] at ha
      simp only [List.map_cons, List.mem_cons] at ha ⊢
      tauto
    · by_cases h2 : c < k
      · rw [if_neg h1, if_pos h2] at ha
        simp only [List.map_cons, List.mem_cons] at ha ⊢
        rcases ha with rfl | ha
        · tauto
        · rcases ih a ha with rfl | ha <;> tauto
      · rw [if_neg h1, if_neg h2] at ha
        simp only [List.map_cons, List.mem_cons] at ha ⊢
        tauto

theorem pairwise_listInsert (k : K) (v : V) (xs : List (K × V))
    (h : List.Pairwise (· < ·) (xs.map Prod.fst)) :
    List.Pairwise (· < ·) ((listInsert k v xs).map Prod.fst) := by
  induction xs with
  | nil => simp [listInsert]
  | cons p xs ih =>
    obtain ⟨a, b⟩ := p
    simp only [List.map_cons, List.pairwise_cons] at h
    obtain ⟨ha, hxs⟩ := h
    simp only [listInsert]
    by_cases h1 : k < a
    · rw [if_pos h1]
      simp only [List.map_cons, List.pairwise_cons]
      refine ⟨?_, ?_⟩
      · intro y hy
        rcases List.mem_cons.1 hy with rfl | hy
        · exact h1
        · exact lt_trans h1 (ha y hy)
      · exact ⟨ha, hxs⟩
    · by_cases h2 : a < k
      · rw [if_neg h1, if_pos h2]
        simp only [List.map_cons, List.pairwise_cons]
        refine ⟨?_, ih hxs⟩
        intro y hy
        rcases keys_listInsert_subset k v xs y hy with rfl | hy
        · exact h2
        · exact ha y hy
      · have hka : k = a := le_antisymm (not_lt.1 h2) (not_lt.1 h1)
        subst hka
        rw [if_neg h1, if_neg h2]
        simp only [List.map_cons, List.pairwise_cons]
        exact ⟨ha, hxs⟩

/-! ### Association-list lookup -/

theorem lookupKV_append (xs ys : List (K × V)) (k : K) :
    lookupKV (xs ++ ys) k =
      match lookupKV xs k with
      | some v => some v
      | none => lookupKV ys k := by
  induction xs with
  | nil => simp [lookupKV]
  | cons p xs ih =>
    obtain ⟨a, b⟩ := p
    simp only [List.cons_append, List.append_eq, lookupKV]
    by_cases h : k = a
    · rw [if_pos h, if_pos h]
    · rw [if_neg h, if_neg h, ih]

theorem lookupKV_eq_none (xs : List (K × V)) (k : K)
    (h : k ∉ xs.map Prod.fst) : lookupKV xs k = none := by
  induction xs with
  | nil => rfl
  | cons p xs ih =>
    obtain ⟨a, b⟩ := p
    simp only [List.map_cons, List.mem_cons] at h
    push_neg at h
    simp only [lookupKV]
    rw [if_neg h.1, ih h.2]

theorem lookupKV_listInsert_self (k : K) (v : V) (xs : List (K × V)) :
    lookupKV (listInsert k v xs) k = some v := by
  induction xs with
  | nil => simp [listInsert, lookupKV]
  | cons p xs ih =>
    obtain ⟨a, b⟩ := p
    simp only [listInsert]
    by_cases h1 : k < a
    · rw [if_pos h1]
      simp [lookupKV]
    · by_cases h2 : a < k
      · rw [if_neg h1, if_pos h2]
        simp only [lookupKV]
        rw [if_neg (ne_of_gt h2), ih]
      · rw [if_neg h1, if_neg h2]
        simp [lookupKV]

theorem lookupKV_listInsert_ne (k k' : K) (v : V) (xs : List (K × V))
    (hne : k' ≠ k) :
    lookupKV (listInsert k v xs) k' = lookupKV xs k' := by
  induction xs with
  | nil => simp [listInsert, lookupKV, hne]
  | cons p xs ih =>
    obtain ⟨a, b⟩ := p
    simp only [listInsert]
    by_cases h1 : k < a
    · rw [if_pos h1]
      simp only [lookupKV]
      rw [if_neg hne]
    · by_cases h2 : a < k
      · rw [if_neg h1, if_pos h2]
        simp only [lookupKV]
        by_cases h3 : k' = a
        · rw [if_pos h3, if_pos h3]
        · rw [if_neg h3, if_neg h3, ih]
      · have hka : k = a := le_antisymm (not_lt.1 h2) (not_lt.1 h1)
        subst hka
        rw [if_neg h1, if_neg h2]
        simp only [lookupKV]
        rw [if_neg hne, if_neg hne]

/-- Node::find on an ordered tree is association-list lookup in the
traversal. -/
theorem findT_eq_lookup (t : Tree K V) (k : K) (hO : OrderedT t) :
    findT t k = lookupKV (inorderT t) k := by
  induction t with
  | nil => rfl
  | node key value h l r ihl ihr =>
    rw [orderedT_node_iff] at hO
    obtain ⟨hOl, hOr, hlk, hkr⟩ := hO
    simp only [findT, inorderT_node]
    rw [lookupKV_append]
    by_cases h1 : k < key
    · rw [if_pos h1, ihl hOl]
      cases hcase : lookupKV (inorderT l) k with
      | some v => rfl
      | none =>
        simp only [lookupKV]
        rw [if_neg (ne_of_lt h1)]
        exact (lookupKV_eq_none _ _ fun hmem =>
          absurd (hkr k hmem) (not_lt_of_gt h1)).symm
    · by_cases h2 : key < k
      · rw [if_neg h1, if_pos h2, ihr hOr]
        rw [lookupKV_eq_none (inorderT l) k
          (fun hmem => absurd (hlk k hmem) (not_lt_of_gt h2))]
        simp only [lookupKV]
        rw [if_neg (ne_of_gt h2)]
      · have hk : k = key := le_antisymm (not_lt.1 h2) (not_lt.1 h1)
        subst hk
        rw [if_neg h1, if_neg h2]
        rw [lookupKV_eq_none (inorderT l) k
          (fun hmem => absurd (hlk k hmem) h1)]
        simp [lookupKV]

/-- Node::insert on a tree satisfying the height-cache and order
invariants never panics, keeps the height-cache invariant, and changes
the traversal exactly as sorted-association-list insertion does. -/
theorem insertT_spec_ord (t : Tree K V) (k : K) (v : V)
    (hH : HInvB t = true) (hO : OrderedT t) :
    ∃ t', insertT t k v = some t' ∧ HInvB t' = true ∧
      inorderT t' = listInsert k v (inorderT t) := by
  induction t with
  | nil => exact ⟨_, rfl, rfl, rfl⟩
  | node key value h l r ihl ihr =>
    rw [hinv_node_iff] at hH
    obtain ⟨hHl, hHr, hh⟩ := hH
    rw [orderedT_node_iff] at hO
    obtain ⟨hOl, hOr, hlk, hkr⟩ := hO
    rcases lt_trichotomy k key with hlt | heq | hgt
    · obtain ⟨l', hl', hHl', hin'⟩ := ihl hHl hOl
      obtain ⟨t', hbal, hH', hin⟩ := balance_spec key value h l' r hHl' hHr
      refine ⟨t', ?_, hH', ?_⟩
      · simp only [insertT]
        rw [if_pos hlt, hl']
        simpa using hbal
      · rw [hin, hin', inorderT_node,
          listInsert_append_lt k v key value (inorderT l) (inorderT r) hlt]
    · subst heq
      obtain ⟨t', hbal, hH', hin⟩ := balance_spec k v h l r hHl hHr
      refine ⟨t', ?_, hH', ?_⟩
      · simp only [insertT]
        rw [if_neg (lt_irrefl k), if_neg (lt_irrefl k)]
        exact hbal
      · rw [hin, inorderT_node,
          listInsert_append_eq k v value (inorderT l) (inorderT r)
            (fun p hp => hlk p.1 (List.mem_map_of_mem Prod.fst hp))]
    · obtain ⟨r', hr', hHr', hin'⟩ := ihr hHr hOr
      obtain ⟨t', hbal, hH', hin⟩ := balance_spec key value h l r' hHl hHr'
      refine ⟨t', ?_, hH', ?_⟩
      · simp only [insertT]
        rw [if_neg (not_lt_of_gt hgt), if_pos hgt, hr']
        simpa using hbal
      · rw [hin, hin', inorderT_node,
          listInsert_append_gt k v key value (inorderT l) (inorderT r)
            (fun p hp => lt_trans (hlk p.1 (List.mem_map_of_mem Prod.fst hp)) hgt)
            hgt]

/-- Insertion preserves the order invariant. -/
theorem insertT_ordered {t t' : Tree K V} {k : K} {v : V}
    (hO : OrderedT t) (hin : inorderT t' = listInsert k v (inorderT t)) :
    OrderedT t' := by
  unfold OrderedT keysT
  rw [hin]
  exact pairwise_listInsert k v (inorderT t) hO

/-! ### Rebalancing restores the balance invariant after insertion -/

/-- Node::balance on a node whose left subtree is exactly two higher
than its right subtree, both subtrees being valid AVL subtrees: the
rotation(s) succeed and restore the balance invariant, and the resulting
height is determined up to one. -/
theorem balance_left_heavy (k : K) (v : V) (h : Nat) (l r : Tree K V)
    (hHl : HInvB l = true) (hHr : HInvB r = true)
    (hBl : BInvB l = true) (hBr : BInvB r = true)
    (hh : heightT l = heightT r + 2) :
    ∃ t', balance (.node k v h l r) = some t' ∧ HInvB t' = true ∧
      BInvB t' = true ∧
      (heightT t' = heightT r + 2 ∨ heightT t' = heightT r + 3) := by
  cases l with
  | nil => simp [heightT] at hh
  | node lk lv lh ll lr =>
    rw [hinv_node_iff] at hHl
    obtain ⟨hHll, hHlr, hlh⟩ := hHl
    rw [binv_node_iff] at hBl
    obtain ⟨hBll, hBlr, hb1, hb2⟩ := hBl
    simp only [heightT_node] at hh
    have h1 : 1 < (heightT (Tree.node lk lv lh ll lr) : Int) -
        (heightT r : Int) := by
      simp only [heightT_node]
      omega
    simp only [balance]
    rw [if_pos h1]
    by_cases h2 : balanceFactor (Tree.node lk lv lh ll lr) < 0
    · have h2a : heightT ll < heightT lr := by
        simp only [balanceFactor, heightT_node] at h2
        omega
      have hlr_pos : 0 < heightT lr := by omega
      cases lr with
      | nil => simp at hlr_pos
      | node bk bv bh bl br =>
        simp only [heightT_node] at h2a hlh hb1 hb2
        rw [hinv_node_iff] at hHlr
        obtain ⟨hHbl, hHbr, hbh⟩ := hHlr
        rw [binv_node_iff] at hBlr
        obtain ⟨hBbl, hBbr, hc1, hc2⟩ := hBlr
        rw [if_pos h2]
        simp only [rotateLeft, rotateRight, Option.some_bind]
        refine ⟨_, rfl, ?_, ?_, ?_⟩
        · simp [hinv_node_iff, hHll, hHbl, hHbr, hHr]
        · simp only [binv_node_iff, heightT_node, hBll, hBbl, hBbr, hBr,
            true_and]
          omega
        · simp only [heightT_node]
          omega
    · have h2a : heightT lr ≤ heightT ll := by
        simp only [balanceFactor, heightT_node] at h2
        omega
      rw [if_neg h2]
      simp only [rotateRight]
      refine ⟨_, rfl, ?_, ?_, ?_⟩
      · simp [hinv_node_iff, hHll, hHlr, hHr]
      · simp only [binv_node_iff, heightT_node, hBll, hBlr, hBr, true_and]
        omega
      · simp only [heightT_node]
        omega

/-- Mirror image of balance_left_heavy for a right-heavy node. -/
theorem balance_right_heavy (k : K) (v : V) (h : Nat) (l r : Tree K V)
    (hHl : HInvB l = true) (hHr : HInvB r = true)
    (hBl : BInvB l = true) (hBr : BInvB r = true)
    (hh : heightT r = heightT l + 2) :
    ∃ t', balance (.node k v h l r) = some t' ∧ HInvB t' = true ∧
      BInvB t' = true ∧
      (heightT t' = heightT l + 2 ∨ heightT t' = heightT l + 3) := by
  cases r with
  | nil => simp [heightT] at hh
  | node rk rv rh rl rr =>
    rw [hinv_node_iff] at hHr
    obtain ⟨hHrl, hHrr, hrh⟩ := hHr
    rw [binv_node_iff] at hBr
    obtain ⟨hBrl, hBrr, hb1, hb2⟩ := hBr
    simp only [heightT_node] at hh
    have h1 : ¬ 1 < (heightT l : Int) -
        (heightT (Tree.node rk rv rh rl rr) : Int) := by
      simp only [heightT_node]
      omega
    have h3 : (heightT l : Int) -
        (heightT (Tree.node rk rv rh rl rr) : Int) < -1 := by
      simp only [heightT_node]
      omega
    simp only [balance]
    rw [if_neg h1, if_pos h3]
    by_cases h2 : 0 < balanceFactor (Tree.node rk rv rh rl rr)
    · have h2a : heightT rr < heightT rl := by
        simp only [balanceFactor, heightT_node] at h2
        omega
      have hrl_pos : 0 < heightT rl := by omega
      cases rl with
      | nil => simp at hrl_pos
      | node bk bv bh bl br =>
        simp only [heightT_node] at h2a hrh hb1 hb2
        rw [hinv_node_iff] at hHrl
        obtain ⟨hHbl, hHbr, hbh⟩ := hHrl
        rw [binv_node_iff] at hBrl
        obtain ⟨hBbl, hBbr, hc1, hc2⟩ := hBrl
        rw [if_pos h2]
        simp only [rotateRight, rotateLeft, Option.some_bind]
        refine ⟨_, rfl, ?_, ?_, ?_⟩
        · simp [hinv_node_iff, hHl, hHbl, hHbr, hHrr]
        · simp only [binv_node_iff, heightT_node, hBl, hBbl, hBbr, hBrr,
            true_and]
          omega
        · simp only [heightT_node]
          omega
    · have h2a : heightT rl ≤ heightT rr := by
        simp only [balanceFactor, heightT_node] at h2
        omega
      rw [if_neg h2]
      simp only [rotateLeft]
      refine ⟨_, rfl, ?_, ?_, ?_⟩
      · simp [hinv_node_iff, hHl, hHrl, hHrr]
      · simp only [binv_node_iff, heightT_node, hBl, hBrl, hBrr, true_and]
        omega
      · simp only [heightT_node]
        omega

/-- Node::insert on a valid AVL tree (height caches correct, balanced)
never panics and preserves both invariants; the height grows by at most
one. -/
theorem insertT_avl (t : Tree K V) (k : K) (v : V)
    (hH : HInvB t = true) (hB : BInvB t = true) :
    ∃ t', insertT t k v = some t' ∧ HInvB t' = true ∧ BInvB t' = true ∧
      heightT t ≤ heightT t' ∧ heightT t' ≤ heightT t + 1 := by
  induction t with
  | nil => exact ⟨_, rfl, rfl, rfl, by simp [heightT], by simp [heightT]⟩
  | node key value h l r ihl ihr =>
    rw [hinv_node_iff] at hH
    obtain ⟨hHl, hHr, hh⟩ := hH
    rw [binv_node_iff] at hB
    obtain ⟨hBl, hBr, hb1, hb2⟩ := hB
    rcases lt_trichotomy k key with hlt | heq | hgt
    · obtain ⟨l', hl', hHl', hBl', hg1, hg2⟩ := ihl hHl hBl
      by_cases hcase : heightT l' ≤ heightT r + 1
      · have hcase2 : heightT r ≤ heightT l' + 1 := by omega
        refine ⟨.node key value (1 + max (heightT l') (heightT r)) l' r,
          ?_, ?_, ?_, ?_, ?_⟩
        · simp only [insertT]
          rw [if_pos hlt, hl']
          simp only [Option.some_bind]
          exact balance_eq_self key value h l' r hcase hcase2
        · simp [hinv_node_iff, hHl', hHr]
        · simp [binv_node_iff, hBl', hBr, hcase, hcase2]
        · simp only [heightT_node]
          omega
        · simp only [heightT_node]
          omega
      · have hxx : heightT l' = heightT r + 2 := by omega
        obtain ⟨t', hbal, hH', hB', hht⟩ :=
          balance_left_heavy key value h l' r hHl' hHr hBl' hBr hxx
        refine ⟨t', ?_, hH', hB', ?_, ?_⟩
        · simp only [insertT]
          rw [if_pos hlt, hl']
          simp only [Option.some_bind]
          exact hbal
        · simp only [heightT_node]
          rcases hht with hht | hht <;> omega
        · simp only [heightT_node]
          rcases hht with hht | hht <;> omega
    · subst heq
      refine ⟨.node k v (1 + max (heightT l) (heightT r)) l r,
        ?_, ?_, ?_, ?_, ?_⟩
      · simp only [insertT]
        rw [if_neg (lt_irrefl k), if_neg (lt_irrefl k)]
        exact balance_eq_self k v h l r hb1 hb2
      · simp [hinv_node_iff, hHl, hHr]
      · simp [binv_node_iff, hBl, hBr, hb1, hb2]
      · simp only [heightT_node]
        omega
      · simp only [heightT_node]
        omega
    · obtain ⟨r', hr', hHr', hBr', hg1, hg2⟩ := ihr hHr hBr
      by_cases hcase : heightT r' ≤ heightT l + 1
      · have hcase2 : heightT l ≤ heightT r' + 1 := by omega
        refine ⟨.node key value (1 + max (heightT l) (heightT r')) l r',
          ?_, ?_, ?_, ?_, ?_⟩
        · simp only [insertT]
          rw [if_neg (not_lt_of_gt hgt), if_pos hgt, hr']
          simp only [Option.some_bind]
          exact balance_eq_self key value h l r' hcase2 hcase
        · simp [hinv_node_iff, hHl, hHr']
        · simp [binv_node_iff, hBl, hBr', hcase, hcase2]
        · simp only [heightT_node]
          omega
        · simp only [heightT_node]
          omega
      · have hxx : heightT r' = heightT l + 2 := by omega
        obtain ⟨t', hbal, hH', hB', hht⟩ :=
          balance_right_heavy key value h l r' hHl hHr' hBl hBr' hxx
        refine ⟨t', ?_, hH', hB', ?_, ?_⟩
        · simp only [insertT]
          rw [if_neg (not_lt_of_gt hgt), if_pos hgt, hr']
          simp only [Option.some_bind]
          exact hbal
        · simp only [heightT_node]
          rcases hht with hht | hht <;> omega
        · simp only [heightT_node]
          rcases hht with hht | hht <;> omega

/-! ### Duplicate-key insertion is a pure value overwrite -/

theorem heightT_updateValue (t : Tree K V) (k : K) (v : V) :
    heightT (updateValue t k v) = heightT t := by
  cases t with
  | nil => rfl
  | node key value h l r =>
    simp only [updateValue]
    split_ifs <;> rfl

theorem hinv_updateValue (t : Tree K V) (k : K) (v : V)
    (hH : HInvB t = true) : HInvB (updateValue t k v) = true := by
  induction t with
  | nil => rfl
  | node key value h l r ihl ihr =>
    rw [hinv_node_iff] at hH
    obtain ⟨hHl, hHr, hh⟩ := hH
    simp only [updateValue]
    split_ifs with h1 h2
    · rw [hinv_node_iff, heightT_updateValue]
      exact ⟨ihl hHl, hHr, hh⟩
    · rw [hinv_node_iff, heightT_updateValue]
      exact ⟨hHl, ihr hHr, hh⟩
    · rw [hinv_node_iff]
      exact ⟨hHl, hHr, hh⟩

theorem binv_updateValue (t : Tree K V) (k : K) (v : V)
    (hB : BInvB t = true) : BInvB (updateValue t k v) = true := by
  induction t with
  | nil => rfl
  | node key value h l r ihl ihr =>
    rw [binv_node_iff] at hB
    obtain ⟨hBl, hBr, hb1, hb2⟩ := hB
    simp only [updateValue]
    split_ifs with h1 h2
    · rw [binv_node_iff, heightT_updateValue]
      exact ⟨ihl hBl, hBr, hb1, hb2⟩
    · rw [binv_node_iff, heightT_updateValue]
      exact ⟨hBl, ihr hBr, hb1, hb2⟩
    · rw [binv_node_iff]
      exact ⟨hBl, hBr, hb1, hb2⟩

theorem keysT_updateValue (t : Tree K V) (k : K) (v : V) :
    keysT (updateValue t k v) = keysT t := by
  induction t with
  | nil => rfl
  | node key value h l r ihl ihr =>
    simp only [updateValue]
    split_ifs with h1 h2
    · rw [keysT_node, keysT_node, ihl]
    · rw [keysT_node, keysT_node, ihr]
    · rw [keysT_node, keysT_node]

theorem findT_updateValue (t : Tree K V) (k : K) (v : V)
    (hO : OrderedT t) (hk : k ∈ keysT t) :
    findT (updateValue t k v) k = some v := by
  induction t with
  | nil => simp at hk
  | node key value h l r ihl ihr =>
    rw [orderedT_node_iff] at hO
    obtain ⟨hOl, hOr, hlk, hkr⟩ := hO
    rw [keysT_node] at hk
    rcases List.mem_append.1 hk with hkl | hkc
    · have hlt : k < key := hlk k hkl
      simp only [updateValue]
      rw [if_pos hlt]
      simp only [findT]
      rw [if_pos hlt]
      exact ihl hOl hkl
    · rcases List.mem_cons.1 hkc with rfl | hkrr
      · simp only [updateValue]
        rw [if_neg (lt_irrefl k), if_neg (lt_irrefl k)]
        simp only [findT]
        rw [if_neg (lt_irrefl k), if_neg (lt_irrefl k)]
      · have hgt : key < k := hkr k hkrr
        simp only [updateValue]
        rw [if_neg (not_lt_of_gt hgt), if_pos hgt]
        simp only [findT]
        rw [if_neg (not_lt_of_gt hgt), if_pos hgt]
        exact ihr hOr hkrr

/-- Node::insert on a key already present in a valid AVL tree is exactly
the in-place value overwrite: same shape, same heights, same keys, only
the one value replaced. -/
theorem insertT_present (t : Tree K V) (k : K) (v : V)
    (hH : HInvB t = true) (hB : BInvB t = true) (hO : OrderedT t)
    (hk : k ∈ keysT t) :
    insertT t k v = some (updateValue t k v) := by
  induction t with
  | nil => simp at hk
  | node key value h l r ihl ihr =>
    rw [hinv_node_iff] at hH
    obtain ⟨hHl, hHr, hh⟩ := hH
    rw [binv_node_iff] at hB
    obtain ⟨hBl, hBr, hb1, hb2⟩ := hB
    rw [orderedT_node_iff] at hO
    obtain ⟨hOl, hOr, hlk, hkr⟩ := hO
    rw [keysT_node] at hk
    rcases lt_trichotomy k key with hlt | heq | hgt
    · have hkl : k ∈ keysT l := by
        rcases List.mem_append.1 hk with hm | hm
        · exact hm
        · rcases List.mem_cons.1 hm with rfl | hm
          · exact absurd hlt (lt_irrefl k)
          · exact absurd (hkr k hm) (not_lt_of_gt hlt)
      simp only [insertT]
      rw [if_pos hlt, ihl hHl hBl hOl hkl]
      simp only [Option.some_bind]
      have hhl := heightT_updateValue l k v
      rw [balance_eq_self key value h (updateValue l k v) r
        (by rw [hhl]; exact hb1) (by rw [hhl]; exact hb2)]
      simp only [updateValue]
      rw [if_pos hlt, hhl, hh]
    · subst heq
      simp only [insertT]
      rw [if_neg (lt_irrefl k), if_neg (lt_irrefl k),
        balance_eq_self k v h l r hb1 hb2]
      simp only [updateValue]
      rw [if_neg (lt_irrefl k), if_neg (lt_irrefl k), hh]
    · have hkrr : k ∈ keysT r := by
        rcases List.mem_append.1 hk with hm | hm
        · exact absurd (hlk k hm) (not_lt_of_gt hgt)
        · rcases List.mem_cons.1 hm with rfl | hm
          · exact absurd hgt (lt_irrefl k)
          · exact hm
      simp only [insertT]
      rw [if_neg (not_lt_of_gt hgt), if_pos hgt, ihr hHr hBr hOr hkrr]
      simp only [Option.some_bind]
      have hhr := heightT_updateValue r k v
      rw [balance_eq_self key value h l (updateValue r k v)
        (by rw [hhr]; exact hb1) (by rw [hhr]; exact hb2)]
      simp only [updateValue]
      rw [if_neg (not_lt_of_gt hgt), if_pos hgt, hhr, hh]

/-! ### The public handle -/

theorem AVLTree.insert_eq (t : AVLTree K V) (k : K) (v : V) :
    t.insert k v = (insertT t.root k v).map (⟨·⟩) := by
  obtain ⟨root⟩ := t
  cases root <;> rfl

theorem AVLTree.remove_some (t : AVLTree K V) (k : K) {t' : Tree K V}
    (h : removeT t.root k = some t') :
    ∃ b, t.remove k = some (⟨t'⟩, b) := by
  obtain ⟨root⟩ := t
  cases root with
  | nil =>
    refine ⟨false, ?_⟩
    simp only [removeT] at h
    rw [Option.some.injEq] at h
    rw [← h]
    rfl
  | node key value hh l r =>
    refine ⟨true, ?_⟩
    simp only [AVLTree.remove] at h ⊢
    rw [h]
    rfl

theorem eq_nil_of_keysT (t : Tree K V) (h : keysT t = []) : t = .nil := by
  cases t with
  | nil => rfl
  | node key value hh l r => simp at h

/-- Running any sequence of public operations from a state satisfying
the height-cache and order invariants succeeds and preserves both. -/
theorem runOps_inv (ops : List (Op K V)) (t : AVLTree K V)
    (hH : HInvB t.root = true) (hO : OrderedT t.root) :
    ∃ u, runOps t ops = some u ∧ HInvB u.root = true ∧ OrderedT u.root := by
  induction ops generalizing t with
  | nil => exact ⟨t, rfl, hH, hO⟩
  | cons op ops ih =>
    cases op with
    | insert k v =>
      obtain ⟨t', h1, h2, h3⟩ := insertT_spec_ord t.root k v hH hO
      obtain ⟨u, hu, hH', hO'⟩ := ih ⟨t'⟩ h2 (insertT_ordered hO h3)
      refine ⟨u, ?_, hH', hO'⟩
      simp only [runOps]
      rw [AVLTree.insert_eq, h1]
      simpa using hu
    | remove k =>
      obtain ⟨t', h1, h2, h3, _, _⟩ := removeT_spec t.root k hH hO
      obtain ⟨b, hrm⟩ := AVLTree.remove_some t k h1
      obtain ⟨u, hu, hH', hO'⟩ := ih ⟨t'⟩ h2 h3
      refine ⟨u, ?_, hH', hO'⟩
      simp only [runOps]
      rw [hrm]
      simpa using hu

/-- Inserting a list of pairs from a valid state succeeds, preserves the
invariants, and introduces no key outside the inserted ones. -/
theorem insertList_inv (L : List (K × V)) (t : AVLTree K V)
    (hH : HInvB t.root = true) (hO : OrderedT t.root) :
    ∃ u, insertList t L = some u ∧ HInvB u.root = true ∧
      OrderedT u.root ∧
      ∀ a ∈ keysT u.root, a ∈ keysT t.root ∨ a ∈ L.map Prod.fst := by
  induction L generalizing t with
  | nil => exact ⟨t, rfl, hH, hO, fun a ha => Or.inl ha⟩
  | cons p L ih =>
    obtain ⟨k, v⟩ := p
    obtain ⟨t', h1, h2, h3⟩ := insertT_spec_ord t.root k v hH hO
    obtain ⟨u, hu, hH', hO', hsub⟩ := ih ⟨t'⟩ h2 (insertT_ordered hO h3)
    refine ⟨u, ?_, hH', hO', ?_⟩
    · simp only [insertList]
      rw [AVLTree.insert_eq, h1]
      simpa using hu
    · intro a ha
      rcases hsub a ha with ha' | ha'
      · have : a ∈ (listInsert k v (inorderT t.root)).map Prod.fst := by
          have hkeq : keysT t' = (listInsert k v (inorderT t.root)).map
              Prod.fst := by
            unfold keysT
            rw [h3]
          rw [← hkeq]
          exact ha'
        rcases keys_listInsert_subset k v (inorderT t.root) a this with
          rfl | hm
        · simp
        · exact Or.inl hm
      · simp only [List.map_cons, List.mem_cons]
        exact Or.inr (Or.inr ha')

/-- Removing every key that might occur in a valid tree empties it. -/
theorem removeList_empty (R : List K) (t : AVLTree K V)
    (hH : HInvB t.root = true) (hO : OrderedT t.root)
    (hsub : ∀ a ∈ keysT t.root, a ∈ R) :
    ∃ u, removeList t R = some u ∧ u.root = .nil := by
  induction R generalizing t with
  | nil =>
    have hkeys : keysT t.root = [] := by
      rcases hk : keysT t.root with _ | ⟨a, rest⟩
      · rfl
      · exact absurd (hsub a (by rw [hk]; exact List.mem_cons_self _ _))
          (List.not_mem_nil a)
    exact ⟨t, rfl, eq_nil_of_keysT t.root hkeys⟩
  | cons k R ih =>
    obtain ⟨t', h1, h2, h3, hsub', hnotin⟩ := removeT_spec t.root k hH hO
    obtain ⟨b, hrm⟩ := AVLTree.remove_some t k h1
    have hsub2 : ∀ a ∈ keysT t', a ∈ R := by
      intro a ha
      rcases List.mem_cons.1 (hsub a (hsub' a ha)) with rfl | hm
      · exact absurd ha hnotin
      · exact hm
    obtain ⟨u, hu, hroot⟩ := ih ⟨t'⟩ h2 h3 hsub2
    refine ⟨u, ?_, hroot⟩
    simp only [removeList]
    rw [hrm]
    simpa using hu

/-! ### The claims -/

/-- C1: the claim says remove(key) returns true iff an entry with that
key existed and was removed, and in particular false on a non-empty tree
not containing the key.  The code instead reports true whenever the root
was present: on the singleton tree {10} the call remove(999) leaves the
tree unchanged yet returns true, contradicting the claim (and the
function's own doc comment); on the empty tree it returns false. -/
theorem C1_remove_flag_eval :
    (AVLTree.mk (Tree.node (10 : Int) (0 : Nat) 1 .nil .nil)).remove 999 =
      some (AVLTree.mk (Tree.node 10 0 1 .nil .nil), true) ∧
    (AVLTree.new : AVLTree Int Nat).remove 999 =
      some (AVLTree.new, false) := by
  exact ⟨by decide, by decide⟩

/-- C2: the claim says removing a key at a node with two children copies
the in-order successor up and removes only that successor, so the entry
count drops by exactly one and every other pair stays findable.  The code
instead overwrites self.left with min.left (nil) and self.right with
min.right, discarding the whole left subtree and everything in the right
subtree above its minimum: after inserting (10,0),(20,1),(5,2),(15,3)
and removing 10, only (15,3) remains and find(5), find(20) are absent. -/
theorem C2_two_children_removal_loses_entries :
    (runOps (AVLTree.new : AVLTree Int Nat)
        [.insert 10 0, .insert 20 1, .insert 5 2, .insert 15 3]).map
        AVLTree.inorder = some [(5, 2), (10, 0), (15, 3), (20, 1)] ∧
    (runOps (AVLTree.new : AVLTree Int Nat)
        [.insert 10 0, .insert 20 1, .insert 5 2, .insert 15 3,
          .remove 10]).map AVLTree.inorder = some [(15, 3)] ∧
    (runOps (AVLTree.new : AVLTree Int Nat)
        [.insert 10 0, .insert 20 1, .insert 5 2, .insert 15 3,
          .remove 10]).map (fun u => (u.find 5, u.find 20, u.find 10)) =
      some (none, none, none) := by
  exact ⟨by decide, by decide, by decide⟩

/-- C3: for every finite sequence of public insert and remove operations
starting from the empty tree, the traversal visits keys in strictly
ascending order with no duplicates, each stored pair exactly once. -/
theorem C3_inorder_sorted_after_ops (ops : List (Op K V)) :
    ∃ u, runOps AVLTree.new ops = some u ∧
      List.Pairwise (· < ·) ((AVLTree.inorder u).map Prod.fst) ∧
      (AVLTree.inorder u).Nodup := by
  obtain ⟨u, hu, hH, hO⟩ := runOps_inv ops AVLTree.new rfl List.Pairwise.nil
  refine ⟨u, hu, hO, ?_⟩
  exact List.Nodup.of_map Prod.fst (hO.imp fun hlt => ne_of_lt hlt)

/-- C4: the claim says after every public insert and every public remove
the balance invariant and the height-cache invariant hold at every node.
Insertion does maintain them, but remove does not: after inserting keys
1..20 in ascending order (a valid AVL tree) and removing key 4, some
node's child heights differ by more than 1, because the two-children
case of Node::remove collapses a whole subtree. -/
theorem C4_remove_breaks_balance :
    (runOps (AVLTree.new : AVLTree Int Nat)
        ((List.range 20).map fun i => Op.insert ((i : Int) + 1) 0)).map
        (fun u => HInvB u.root && BInvB u.root) = some true ∧
    (runOps (AVLTree.new : AVLTree Int Nat)
        (((List.range 20).map fun i => Op.insert ((i : Int) + 1) 0) ++
          [Op.remove 4])).map (fun u => BInvB u.root) = some false := by
  exact ⟨by decide, by decide⟩

/-- C5: inserting (k,v1) and then (k,v2) into a valid AVL tree leaves
exactly one entry for k, find(k) returns v2, and the second insert is a
pure in-place value overwrite with no structural change (the resulting
tree is updateValue of the first, which preserves shape, heights and all
other entries). -/
theorem C5_last_write_wins (t : Tree K V) (k : K) (v1 v2 : V)
    (hH : HInvB t = true) (hB : BInvB t = true) (hO : OrderedT t) :
    ∃ t1 t2, insertT t k v1 = some t1 ∧ insertT t1 k v2 = some t2 ∧
      t2 = updateValue t1 k v2 ∧ findT t2 k = some v2 ∧
      (keysT t2).count k = 1 := by
  obtain ⟨t1, h1, hH1, hB1, _, _⟩ := insertT_avl t k v1 hH hB
  obtain ⟨t1x, h1x, _, hin1⟩ := insertT_spec_ord t k v1 hH hO
  rw [h1] at h1x
  have he : t1 = t1x := Option.some.inj h1x
  subst he
  have hO1 : OrderedT t1 := insertT_ordered hO hin1
  have hk1 : k ∈ keysT t1 := by
    unfold keysT
    rw [hin1]
    exact mem_keys_listInsert k v1 (inorderT t)
  have h2 := insertT_present t1 k v2 hH1 hB1 hO1 hk1
  have hndk : (keysT t1).Nodup := hO1.imp fun hlt => ne_of_lt hlt
  refine ⟨t1, updateValue t1 k v2, h1, h2, rfl,
    findT_updateValue t1 k v2 hO1 hk1, ?_⟩
  rw [keysT_updateValue]
  exact List.count_eq_one_of_mem hndk hk1

theorem C5_witness :
    ∃ t1 t2, insertT (Tree.node (5 : Int) (0 : Nat) 1 .nil .nil) 1 10 =
        some t1 ∧ insertT t1 1 20 = some t2 ∧
      t2 = updateValue t1 1 20 ∧ findT t2 1 = some 20 ∧
      (keysT t2).count 1 = 1 :=
  C5_last_write_wins (Tree.node 5 0 1 .nil .nil) 1 10 20
    (by decide) (by decide) (by decide)

/-- C6: removing a key absent from a tree satisfying the order and
balance invariants (and the height-cache invariant) returns the
byte-for-byte identical tree: same structure, keys, values and height
fields, no rotation performed. -/
theorem C6_remove_absent_unchanged (t : AVLTree K V) (k : K)
    (hH : HInvB t.root = true) (hB : BInvB t.root = true)
    (hO : OrderedT t.root) (hk : k ∉ keysT t.root) :
    ∃ b, t.remove k = some (t, b) :=
  AVLTree.remove_some t k (removeT_absent t.root k hH hB hk)

theorem C6_witness :
    ∃ b, (AVLTree.mk (Tree.node (10 : Int) (0 : Nat) 2
        (Tree.node 5 1 1 .nil .nil) .nil)).remove 999 =
      some (AVLTree.mk (Tree.node 10 0 2 (Tree.node 5 1 1 .nil .nil) .nil),
        b) :=
  C6_remove_absent_unchanged
    (AVLTree.mk (Tree.node 10 0 2 (Tree.node 5 1 1 .nil .nil) .nil)) 999
    (by decide) (by decide) (by decide) (by decide)

/-- C7: rotate_right on a node with a present left child promotes that
left child, attaches its former right child as the demoted node's new
left child, makes the demoted node the new root's right child, and
recomputes the demoted node's height before the new root's; both
rotations preserve the in-order traversal. -/
theorem C7_rotation_structure :
    (∀ (k : K) (v : V) (h : Nat) (lk : K) (lv : V) (lh : Nat)
        (ll lr r : Tree K V),
        rotateRight (.node k v h (.node lk lv lh ll lr) r) =
          some (.node lk lv
            (1 + max (heightT ll) (1 + max (heightT lr) (heightT r))) ll
            (.node k v (1 + max (heightT lr) (heightT r)) lr r))) ∧
    (∀ t t' : Tree K V, rotateRight t = some t' →
      inorderT t' = inorderT t) ∧
    (∀ t t' : Tree K V, rotateLeft t = some t' →
      inorderT t' = inorderT t) := by
  refine ⟨fun k v h lk lv lh ll lr r => rfl, ?_, ?_⟩
  · intro t t' ht
    cases t with
    | nil => simp [rotateRight] at ht
    | node k v h l r =>
      cases l with
      | nil => simp [rotateRight] at ht
      | node lk lv lh ll lr =>
        simp only [rotateRight, Option.some.injEq] at ht
        rw [← ht]
        simp [List.append_assoc]
  · intro t t' ht
    cases t with
    | nil => simp [rotateLeft] at ht
    | node k v h l r =>
      cases r with
      | nil => simp [rotateLeft] at ht
      | node rk rv rh rl rr =>
        simp only [rotateLeft, Option.some.injEq] at ht
        rw [← ht]
        simp [List.append_assoc]

theorem C7_witness :
    inorderT (Tree.node (1 : Int) (0 : Nat) 2 .nil
        (Tree.node 2 0 1 .nil .nil)) =
      inorderT (Tree.node (2 : Int) (0 : Nat) 2
        (Tree.node 1 0 1 .nil .nil) .nil) :=
  C7_rotation_structure.2.1
    (Tree.node 2 0 2 (Tree.node 1 0 1 .nil .nil) .nil)
    (Tree.node 1 0 2 .nil (Tree.node 2 0 1 .nil .nil)) (by decide)

/-- C8: when balance is invoked on a node whose children satisfy the
height-cache invariant the fatal branches are unreachable: the call
never panics (no unwrap or expect fires), and whenever the balance
factor exceeds 1 the left child is present, symmetrically for the right
child when it is below -1. -/
theorem C8_balance_fatal_unreachable (k : K) (v : V) (h : Nat)
    (l r : Tree K V) (hl : HInvB l = true) (hr : HInvB r = true) :
    (balance (.node k v h l r)).isSome = true ∧
    (1 < (heightT l : Int) - (heightT r : Int) → l ≠ .nil) ∧
    ((heightT l : Int) - (heightT r : Int) < -1 → r ≠ .nil) := by
  obtain ⟨t', hb, _, _⟩ := balance_spec k v h l r hl hr
  refine ⟨by rw [hb]; rfl, ?_, ?_⟩
  · intro hbf hnil
    subst hnil
    simp at hbf
    omega
  · intro hbf hnil
    subst hnil
    simp at hbf
    omega

theorem C8_witness :
    (balance (Tree.node (3 : Int) (0 : Nat) 9
        (Tree.node 2 0 2 (Tree.node 1 0 1 .nil .nil) .nil)
        .nil)).isSome = true ∧
    (1 < (heightT (Tree.node (2 : Int) (0 : Nat) 2
          (Tree.node 1 0 1 .nil .nil) .nil) : Int) -
        (heightT (Tree.nil : Tree Int Nat) : Int) →
      Tree.node (2 : Int) (0 : Nat) 2 (Tree.node 1 0 1 .nil .nil) .nil ≠
        Tree.nil) ∧
    ((heightT (Tree.node (2 : Int) (0 : Nat) 2
          (Tree.node 1 0 1 .nil .nil) .nil) : Int) -
        (heightT (Tree.nil : Tree Int Nat) : Int) < -1 →
      (Tree.nil : Tree Int Nat) ≠ Tree.nil) :=
  C8_balance_fatal_unreachable 3 0 9
    (Tree.node 2 0 2 (Tree.node 1 0 1 .nil .nil) .nil) .nil
    (by decide) (by decide)

/-- C9: inserting a list of pairs into a new tree and then removing each
of those keys once, in any order, leaves the empty tree (root absent),
the state of a newly constructed tree.  This holds even with the lossy
two-children removal, since a removal never introduces a key. -/
theorem C9_round_trip_empty (L : List (K × V)) (R : List K)
    (hnd : R.Nodup) (h1 : ∀ a ∈ R, a ∈ L.map Prod.fst)
    (h2 : ∀ a ∈ L.map Prod.fst, a ∈ R) :
    ∃ t u, insertList AVLTree.new L = some t ∧
      removeList t R = some u ∧ u.root = Tree.nil := by
  obtain ⟨t, ht, hH, hO, hsub⟩ :=
    insertList_inv L AVLTree.new rfl List.Pairwise.nil
  have hsub2 : ∀ a ∈ keysT (AVLTree.root t), a ∈ R := by
    intro a ha
    rcases hsub a ha with ha' | ha'
    · exact absurd ha' (List.not_mem_nil a)
    · exact h2 a ha'
  obtain ⟨u, hu, hroot⟩ := removeList_empty R t hH hO hsub2
  exact ⟨t, u, ht, hu, hroot⟩

theorem C9_witness :
    ∃ t u, insertList (AVLTree.new : AVLTree Int Nat)
        [(1, 10), (2, 20), (3, 30)] = some t ∧
      removeList t [2, 3, 1] = some u ∧ u.root = Tree.nil :=
  C9_round_trip_empty [(1, 10), (2, 20), (3, 30)] [2, 3, 1]
    (by decide) (by decide) (by decide)

/-- C10: inserting (k,v) into a valid tree does not disturb any other
entry: for every key mapped before the insert and different from k, find
returns the same value afterwards. -/
theorem C10_insert_frame (t : AVLTree K V) (k k' : K) (v w : V)
    (hH : HInvB t.root = true) (hO : OrderedT t.root)
    (hne : k' ≠ k) (hw : t.find k' = some w) :
    ∃ u, t.insert k v = some u ∧ u.find k' = some w := by
  obtain ⟨t', h1, h2, h3⟩ := insertT_spec_ord t.root k v hH hO
  have hO' : OrderedT t' := insertT_ordered hO h3
  refine ⟨⟨t'⟩, ?_, ?_⟩
  · rw [AVLTree.insert_eq, h1]
    rfl
  · show findT t' k' = some w
    rw [findT_eq_lookup t' k' hO', h3,
      lookupKV_listInsert_ne k k' v _ hne,
      ← findT_eq_lookup t.root k' hO]
    exact hw

theorem C10_witness :
    ∃ u, (AVLTree.mk (Tree.node (5 : Int) (7 : Nat) 1 .nil .nil)).insert
        3 0 = some u ∧ u.find 5 = some 7 :=
  C10_insert_frame (AVLTree.mk (Tree.node 5 7 1 .nil .nil)) 3 5 0 7
    (by decide) (by decide) (by decide) (by decide)

end AVLSpec
